import Mathlib

/-!
Verification of the LeekDuck event-scraper core (`scraper.py`): a shallow
embedding of its temporal parser, classifier, detail extractor and event
assembler, together with theorems about the spec's testable properties.
-/

namespace LeekDuck

/-! Proleptic-Gregorian calendar arithmetic, used to model `datetime`. -/

def isLeapYear (y : Nat) : Bool :=
  (y % 4 == 0 && y % 100 != 0) || y % 400 == 0

def daysInMonth (y m : Nat) : Nat :=
  if m = 2 then (if isLeapYear y then 29 else 28)
  else if m = 4 ∨ m = 6 ∨ m = 9 ∨ m = 11 then 30
  else 31

def daysBeforeMonth (y m : Nat) : Nat :=
  (List.range (m - 1)).foldl (fun a i => a + daysInMonth y (i + 1)) 0

def daysBeforeYear (y : Nat) : Nat :=
  365 * (y - 1) + (y - 1) / 4 - (y - 1) / 100 + (y - 1) / 400

/-- A naive (timezone-less) `datetime`, to minute precision; the program
never produces seconds or microseconds. -/
structure Naive where
  year : Nat
  month : Nat
  day : Nat
  hour : Nat
  minute : Nat
deriving DecidableEq, Repr

def Naive.dayIndex (n : Naive) : Nat :=
  daysBeforeYear n.year + daysBeforeMonth n.year n.month + (n.day - 1)

/-- Minutes since 0001-01-01 00:00 of the proleptic Gregorian calendar. -/
def Naive.toMin (n : Naive) : Nat :=
  1440 * n.dayIndex + 60 * n.hour + n.minute

/-- Day of week, 0 = Sunday (0001-01-01 was a Monday). -/
def dowSun (y m d : Nat) : Nat :=
  (daysBeforeYear y + daysBeforeMonth y m + (d - 1) + 1) % 7

def lastSundayDay (y m : Nat) : Nat :=
  daysInMonth y m - dowSun y m (daysInMonth y m)

/-- First naive minute of the CEST period of year `y` (EU rule: last Sunday
of March, 02:00 CET = 03:00 CEST wall clock). -/
def dstStartMin (y : Nat) : Nat := (Naive.mk y 3 (lastSundayDay y 3) 3 0).toMin

/-- First naive minute after the CEST period (last Sunday of October; the
ambiguous hour 02:00-02:59 resolves to CET under pytz `is_dst=False`). -/
def dstEndMin (y : Nat) : Nat := (Naive.mk y 10 (lastSundayDay y 10) 2 0).toMin

/-- UTC offset in minutes that `pytz.timezone('Europe/Brussels').localize`
attaches to a naive datetime (default `is_dst=False`). -/
def brusselsOffsetMin (n : Naive) : Nat :=
  if dstStartMin n.year ≤ n.toMin ∧ n.toMin < dstEndMin n.year then 120 else 60

/-- A timezone-aware `datetime` as produced by `self.timezone.localize`:
the naive wall-clock fields plus the fixed offset pytz attached. -/
structure Aware where
  naive : Naive
  offset : Nat
deriving DecidableEq, Repr

def localize (n : Naive) : Aware := ⟨n, brusselsOffsetMin n⟩

/-- The UTC instant of an aware datetime; Python compares aware datetimes
by this value. -/
def Aware.utcMin (a : Aware) : Int := (a.naive.toMin : Int) - (a.offset : Int)

/-- Naive calendar successor by one hour, as `timedelta(hours=1)` addition
acts on the wall-clock fields. -/
def Naive.addOneHour (n : Naive) : Naive :=
  if n.hour + 1 ≤ 23 then { n with hour := n.hour + 1 }
  else if n.day + 1 ≤ daysInMonth n.year n.month then
    { n with day := n.day + 1, hour := 0 }
  else if n.month + 1 ≤ 12 then { n with month := n.month + 1, day := 1, hour := 0 }
  else { year := n.year + 1, month := 1, day := 1, hour := 0, minute := n.minute }

/-- `dt + timedelta(hours=1)`: datetime arithmetic adds to the wall clock
and keeps the attached tzinfo (offset) unchanged. -/
def Aware.addOneHour (a : Aware) : Aware := ⟨a.naive.addOneHour, a.offset⟩

def pad2 (n : Nat) : String := if n < 10 then "0" ++ toString n else toString n

def fmtHour12 (h : Nat) : Nat := if h % 12 = 0 then 12 else h % 12

/-- `dt.strftime('%I:%M %p')`. -/
def fmtTimeIMp (a : Aware) : String :=
  pad2 (fmtHour12 a.naive.hour) ++ ":" ++ pad2 a.naive.minute ++
    (if a.naive.hour < 12 then " AM" else " PM")

/-! Character classes of the regexes (the program only meets ASCII text). -/

def isSpaceC (c : Char) : Bool :=
  c = ' ' || c = '\t' || c = '\n' || c = '\r' || c = '\x0b' || c = '\x0c'

def isDigitC (c : Char) : Bool := c.isDigit

def isAlphaC (c : Char) : Bool := c.isAlpha

def isWordC (c : Char) : Bool := c.isAlpha || c.isDigit || c = '_'

def lowerChars (l : List Char) : List Char := l.map Char.toLower

def digitsToNat (l : List Char) : Nat := l.foldl (fun a c => 10 * a + (c.toNat - 48)) 0

/-! Preprocessing in `parse_datetime`: `date_str.replace('Local Time', '').strip()`. -/

def localTimePat : List Char := "Local Time".data

def replaceLTGo : Nat → List Char → List Char
  | 0, l => l
  | _ + 1, [] => []
  | fuel + 1, c :: cs =>
    if localTimePat.isPrefixOf (c :: cs) then
      replaceLTGo fuel ((c :: cs).drop localTimePat.length)
    else c :: replaceLTGo fuel cs

def replaceLT (l : List Char) : List Char := replaceLTGo l.length l

def stripChars (l : List Char) : List Char :=
  ((l.dropWhile isSpaceC).reverse.dropWhile isSpaceC).reverse

def preprocess (s : String) : List Char := stripChars (replaceLT s.data)

/-! Field validation of `datetime.strptime`, one directive at a time.  The
composed string is `f"{month} {day} {year} {hour}:{minute} {ampm}"`, so a
field parses iff its directive's sub-regex consumes the capture exactly and
the resulting calendar date is constructible. -/

def monthNamesFull : List (List Char) :=
  ["january".data, "february".data, "march".data, "april".data, "may".data,
   "june".data, "july".data, "august".data, "september".data, "october".data,
   "november".data, "december".data]

def monthNamesAbbr : List (List Char) :=
  ["jan".data, "feb".data, "mar".data, "apr".data, "may".data, "jun".data,
   "jul".data, "aug".data, "sep".data, "oct".data, "nov".data, "dec".data]

def monthLookupGo (target : List Char) : List (List Char) → Nat → Option Nat
  | [], _ => none
  | n :: rest, i => if target = n then some i else monthLookupGo target rest (i + 1)

/-- `%B`: case-insensitive full month name. -/
def monthNumFull (l : List Char) : Option Nat := monthLookupGo (lowerChars l) monthNamesFull 1

/-- `%b`: case-insensitive three-letter month abbreviation. -/
def monthNumAbbr (l : List Char) : Option Nat := monthLookupGo (lowerChars l) monthNamesAbbr 1

/-- `%d` accepts `1`-`9`, `01`-`31`; anything else leaves unconverted data. -/
def validDayStr (l : List Char) : Bool :=
  l.all isDigitC &&
    ((l.length == 1 && decide (1 ≤ digitsToNat l)) ||
     (l.length == 2 && decide (1 ≤ digitsToNat l) && decide (digitsToNat l ≤ 31)))

/-- `%I` accepts `1`-`9`, `01`-`12`. -/
def validHourStr (l : List Char) : Bool :=
  l.all isDigitC &&
    ((l.length == 1 && decide (1 ≤ digitsToNat l)) ||
     (l.length == 2 && decide (1 ≤ digitsToNat l) && decide (digitsToNat l ≤ 12)))

/-- `%M` accepts `0`-`9`, `00`-`59`. -/
def validMinStr (l : List Char) : Bool :=
  l.all isDigitC &&
    ((l.length == 1) || (l.length == 2 && decide (digitsToNat l ≤ 59)))

def hour24 (h12 : Nat) (isPM : Bool) : Nat :=
  if isPM then (if h12 == 12 then 12 else h12 + 12)
  else (if h12 == 12 then 0 else h12)

/-- Field checks plus `datetime` construction (`MINYEAR <= y`, day within
month); `none` models the `ValueError` that `strptime` raises. -/
def mkNaiveChecked (y mo : Nat) (dayS hourS minS : List Char) (isPM : Bool) : Option Naive :=
  if validDayStr dayS && validHourStr hourS && validMinStr minS && decide (1 ≤ y) then
    if digitsToNat dayS ≤ daysInMonth y mo then
      some ⟨y, mo, digitsToNat dayS, hour24 (digitsToNat hourS) isPM, digitsToNat minS⟩
    else none
  else none

/-- Captures of the full-form pattern other than the weekday. -/
structure FullRest where
  monthName : List Char
  dayS : List Char
  yearS : List Char
  hourS : List Char
  minS : List Char
  isPM : Bool
deriving DecidableEq, Repr

/-- `datetime.strptime(f"{month} {day} {year} {hour}:{minute} {ampm}", "%B %d %Y %I:%M %p")`. -/
def strptimeFull (r : FullRest) : Option Naive :=
  match monthNumFull r.monthName with
  | none => none
  | some mo => mkNaiveChecked (digitsToNat r.yearS) mo r.dayS r.hourS r.minS r.isPM

/-- Captures of the short-form pattern other than the weekday. -/
structure ShortRest where
  monthName : List Char
  dayS : List Char
  hourS : List Char
  minS : List Char
  isPM : Bool
deriving DecidableEq, Repr

/-- `%Y` in the short branch reads the four digits of `f"{year}"`. -/
def yearStrOk (y : Nat) : Bool := (toString y).length == 4

/-- `datetime.strptime(f"{month} {day} {year} {hour}:{minute} {ampm}", "%b %d %Y %I:%M %p")`
with the year supplied as a Python int. -/
def strptimeShort (r : ShortRest) (y : Nat) : Option Naive :=
  if yearStrOk y then
    match monthNumAbbr r.monthName with
    | none => none
    | some mo => mkNaiveChecked y mo r.dayS r.hourS r.minS r.isPM
  else none

/-! A deterministic matcher for the two date regexes.  Every greedy
quantifier in them is followed by a token from a disjoint character class,
so maximal munch at each start position coincides with Python's
backtracking semantics, and `re.search` is the first position at which the
deterministic match succeeds. -/

def eatPlus (p : Char → Bool) (l : List Char) : Option (List Char) :=
  if (l.takeWhile p).isEmpty then none else some (l.dropWhile p)

def eatChar (c : Char) : List Char → Option (List Char)
  | x :: rest => if x = c then some rest else none
  | [] => none

def takePlus (p : Char → Bool) (l : List Char) : Option (List Char × List Char) :=
  if (l.takeWhile p).isEmpty then none else some (l.takeWhile p, l.dropWhile p)

def eat4Digits (l : List Char) : Option (List Char × List Char) :=
  let t := l.take 4
  if t.length == 4 && t.all isDigitC then some (t, l.drop 4) else none

def eatAMPM (l : List Char) : Option (Bool × List Char) :=
  match l with
  | 'A' :: 'M' :: rest => some (false, rest)
  | 'P' :: 'M' :: rest => some (true, rest)
  | _ => none

/-- Consume `,\s+`. -/
def eatCommaSpaces (l : List Char) : Option (List Char) :=
  match eatChar ',' l with
  | none => none
  | some l => eatPlus isSpaceC l

/-- Consume the literal `at` followed by `\s+`. -/
def eatAtSpaces (l : List Char) : Option (List Char) :=
  match eatChar 'a' l with
  | none => none
  | some l =>
  match eatChar 't' l with
  | none => none
  | some l => eatPlus isSpaceC l

/-- Consume `(\d+):(\d+)\s+(AM|PM)` and return hour digits, minute digits
and the PM flag (nothing may follow, matching `re.search` which is free to
stop there). -/
def eatTime (l : List Char) : Option (List Char × List Char × Bool) :=
  match takePlus isDigitC l with
  | none => none
  | some (hh, l) =>
  match eatChar ':' l with
  | none => none
  | some l =>
  match takePlus isDigitC l with
  | none => none
  | some (mm, l) =>
  match eatPlus isSpaceC l with
  | none => none
  | some l =>
  match eatAMPM l with
  | none => none
  | some (pm, _) => some (hh, mm, pm)

/-- Consume `(\w+)\s+(\d+)` (month name and day). -/
def eatMonthDay (l : List Char) : Option (List Char × List Char × List Char) :=
  match takePlus isWordC l with
  | none => none
  | some (mon, l) =>
  match eatPlus isSpaceC l with
  | none => none
  | some l =>
  match takePlus isDigitC l with
  | none => none
  | some (day, l) => some (mon, day, l)

/-- The tail of `r'(\w+),\s+(\w+)\s+(\d+),\s+(\d{4}),\s+at\s+(\d+):(\d+)\s+(AM|PM)'`
after the weekday capture. -/
def matchFullRest (l : List Char) : Option FullRest :=
  match eatCommaSpaces l with
  | none => none
  | some l =>
  match eatMonthDay l with
  | none => none
  | some (mon, day, l) =>
  match eatCommaSpaces l with
  | none => none
  | some l =>
  match eat4Digits l with
  | none => none
  | some (yr, l) =>
  match eatCommaSpaces l with
  | none => none
  | some l =>
  match eatAtSpaces l with
  | none => none
  | some l =>
  match eatTime l with
  | none => none
  | some (hh, mm, pm) => some ⟨mon, day, yr, hh, mm, pm⟩

structure FullCaps where
  dayName : List Char
  rest : FullRest
deriving DecidableEq, Repr

def matchFullAt (l : List Char) : Option FullCaps :=
  match takePlus isWordC l with
  | none => none
  | some (w, l1) =>
  match matchFullRest l1 with
  | none => none
  | some r => some ⟨w, r⟩

def searchFull : List Char → Option FullCaps
  | [] => none
  | c :: cs =>
    match matchFullAt (c :: cs) with
    | some r => some r
    | none => searchFull cs

/-- The tail of `r'(\w+),\s+(\w+)\s+(\d+),\s+at\s+(\d+):(\d+)\s+(AM|PM)'`
after the weekday capture. -/
def matchShortRest (l : List Char) : Option ShortRest :=
  match eatCommaSpaces l with
  | none => none
  | some l =>
  match eatMonthDay l with
  | none => none
  | some (mon, day, l) =>
  match eatCommaSpaces l with
  | none => none
  | some l =>
  match eatAtSpaces l with
  | none => none
  | some l =>
  match eatTime l with
  | none => none
  | some (hh, mm, pm) => some ⟨mon, day, hh, mm, pm⟩

structure ShortCaps where
  dayName : List Char
  rest : ShortRest
deriving DecidableEq, Repr

def matchShortAt (l : List Char) : Option ShortCaps :=
  match takePlus isWordC l with
  | none => none
  | some (w, l1) =>
  match matchShortRest l1 with
  | none => none
  | some r => some ⟨w, r⟩

def searchShort : List Char → Option ShortCaps
  | [] => none
  | c :: cs =>
    match matchShortAt (c :: cs) with
    | some r => some r
    | none => searchShort cs

/-- The two clock readings the parser takes: `datetime.now().year` (system
local time) and `datetime.now(self.timezone)` (compared as a UTC instant). -/
structure Clock where
  sysYear : Nat
  bruNowUtc : Int
deriving Repr

/-- `LeekDuckScraper.parse_datetime`.  `Except.error ()` models an uncaught
Python exception (a `ValueError` from `strptime`); `.ok none` models
returning `None`. -/
def parseDatetime (s : String) (preferFuture : Bool) (clk : Clock) :
    Except Unit (Option Aware) :=
  if s = "" then .ok none
  else
    match searchFull (preprocess s) with
    | some c =>
      match strptimeFull c.rest with
      | some n => .ok (some (localize n))
      | none => .error ()
    | none =>
      match searchShort (preprocess s) with
      | none => .ok none
      | some c =>
        match strptimeShort c.rest clk.sysYear with
        | none => .error ()
        | some n =>
          if preferFuture = true ∧ (localize n).utcMin < clk.bruNowUtc then
            match strptimeShort c.rest (clk.sysYear + 1) with
            | some n2 => .ok (some (localize n2))
            | none => .error ()
          else .ok (some (localize n))

/-! The classifier `get_event_icon`: an ordered if-chain of substring tests
over the lowercased title.  Each branch returns a distinct icon string, so
the branch taken is modelled as a category tag and the returned string as a
static tag-to-glyph table. -/

inductive CategoryTag where
  | raidHour
  | raidDay
  | megaRaid
  | tieredRaidBattle
  | maxBattle
  | spotlightHour
  | communityDay
  | battleLeague
  | festival
  | halloween
  | goPass
  | wildArea
  | season
  | trade
  | showcase
  | research
  | generic
deriving DecidableEq, Repr

/-- Substring occurrence check. -/
def containsSub (pat : List Char) : List Char → Bool
  | [] => pat.isEmpty
  | c :: cs => pat.isPrefixOf (c :: cs) || containsSub pat cs

/-- Python's `kw in title_lower`: substring containment. -/
def containsKw (tl : List Char) (kw : String) : Bool := containsSub kw.data tl

def raidTiers : List String :=
  ["in 1-star", "in 2-star", "in 3-star", "in 4-star", "in 5-star", "in 6-star",
   "raid battles"]

def classify (title : String) : CategoryTag :=
  let tl := lowerChars title.data
  if containsKw tl "raid hour" then .raidHour
  else if containsKw tl "raid day" || containsKw tl "raid weekend" then .raidDay
  else if containsKw tl "mega raid" || containsKw tl "in mega raids" then .megaRaid
  else if raidTiers.any (fun t => containsKw tl t) then .tieredRaidBattle
  else if containsKw tl "max battle" || containsKw tl "max monday" ||
          containsKw tl "dynamax" || containsKw tl "gigantamax" then .maxBattle
  else if containsKw tl "spotlight hour" then .spotlightHour
  else if containsKw tl "community day" then .communityDay
  else if containsKw tl "go battle" || containsKw tl "battle league" ||
          containsKw tl "pvp" then .battleLeague
  else if containsKw tl "festival" || containsKw tl "celebration" then .festival
  else if containsKw tl "halloween" then .halloween
  else if containsKw tl "go pass" then .goPass
  else if containsKw tl "wild area" || containsKw tl "safari" then .wildArea
  else if containsKw tl "season" || containsKw tl "tales of transformation" then .season
  else if containsKw tl "trade" then .trade
  else if containsKw tl "showcase" then .showcase
  else if containsKw tl "research" then .research
  else .generic

/-- Code points of the icon literal each branch returns (the source file
stores the emoji in a mangled encoding; these are its exact characters). -/
def iconCodes : CategoryTag → List Nat
  | .raidHour => [0xe2, 0xb0]
  | .raidDay => [0xf0, 0x178, 0x17d, 0xaf]
  | .megaRaid => [0xf0, 0x178, 0x2019, 0xab]
  | .tieredRaidBattle => [0xe2, 0x161, 0x201d, 0xef, 0xb8]
  | .maxBattle => [0xe2, 0xad]
  | .spotlightHour => [0xf0, 0x178, 0x201d, 0xa6]
  | .communityDay => [0xf0, 0x178, 0x2018, 0xa5]
  | .battleLeague => [0xf0, 0x178, 0xa5, 0x160]
  | .festival => [0xf0, 0x178, 0x17d, 0x2030]
  | .halloween => [0xf0, 0x178, 0x17d, 0x192]
  | .goPass => [0xf0, 0x178, 0x17d, 0xab]
  | .wildArea => [0xf0, 0x178, 0x2014, 0xba, 0xef, 0xb8]
  | .season => [0xf0, 0x178, 0x152]
  | .trade => [0xf0, 0x178, 0xa4]
  | .showcase => [0xf0, 0x178, 0x201c, 0xb8]
  | .research => [0xf0, 0x178, 0x201d]
  | .generic => [0xf0, 0x178, 0x201c, 0x2026]

def iconOf (t : CategoryTag) : String := String.mk ((iconCodes t).map Char.ofNat)

/-- `LeekDuckScraper.get_event_icon`. -/
def getEventIcon (title : String) : String := iconOf (classify title)

/-- Modelled from the spec: the Classifier as an ordered list of
(keyword-set, tag) rules, first match wins, generic default
(spec section 4.2).  Used only to compare against `classify`. -/
def specRules : List (List String × CategoryTag) :=
  [(["raid hour"], .raidHour),
   (["raid day", "raid weekend"], .raidDay),
   (["mega raid", "in mega raids"], .megaRaid),
   (raidTiers, .tieredRaidBattle),
   (["max battle", "max monday", "dynamax", "gigantamax"], .maxBattle),
   (["spotlight hour"], .spotlightHour),
   (["community day"], .communityDay),
   (["go battle", "battle league", "pvp"], .battleLeague),
   (["festival", "celebration"], .festival),
   (["halloween"], .halloween),
   (["go pass"], .goPass),
   (["wild area", "safari"], .wildArea),
   (["season", "tales of transformation"], .season),
   (["trade"], .trade),
   (["showcase"], .showcase),
   (["research"], .research)]

def classifyRulesGo (tl : List Char) : List (List String × CategoryTag) → CategoryTag
  | [] => .generic
  | (kws, tag) :: rest =>
    if kws.any (fun k => containsKw tl k) then tag else classifyRulesGo tl rest

/-- Modelled from the spec: evaluate the ordered rules over the lowercased
title, returning the tag of the first matching rule. -/
def classifyByRules (title : String) : CategoryTag :=
  classifyRulesGo (lowerChars title.data) specRules

/-! The detail-page extraction regexes of `fetch_event_details`.  As with
the date patterns, each greedy quantifier is followed by a disjoint class,
so a deterministic maximal-munch matcher agrees with `re.search`
and `re.findall`. -/

def eatCharCI (c : Char) : List Char → Option (List Char)
  | x :: rest => if x.toLower = c then some rest else none
  | [] => none

/-- Consume a literal case-insensitively (the pattern is given lowercased). -/
def eatLitCI : List Char → List Char → Option (List Char)
  | [], l => some l
  | p :: ps, l =>
    match eatCharCI p l with
    | none => none
    | some l => eatLitCI ps l

/-- Consume a literal exactly. -/
def eatLit : List Char → List Char → Option (List Char)
  | [], l => some l
  | p :: ps, l =>
    match eatChar p l with
    | none => none
    | some l => eatLit ps l

/-- Consume `[AP]M` under `re.IGNORECASE`. -/
def eatAMPMci (l : List Char) : Option (List Char) :=
  match l with
  | a :: m :: rest =>
    if (a.toLower = 'a' || a.toLower = 'p') && m.toLower = 'm' then some rest else none
  | _ => none

/-- Consume `[A-Za-z]+,\s+[A-Za-z]+\s+\d+,\s+\d{4}` (weekday, month,
day, year of a full-form dated string). -/
def eatFullDatePrefix (l : List Char) : Option (List Char) :=
  match takePlus isAlphaC l with
  | none => none
  | some (_, l) =>
  match eatCommaSpaces l with
  | none => none
  | some l =>
  match takePlus isAlphaC l with
  | none => none
  | some (_, l) =>
  match eatPlus isSpaceC l with
  | none => none
  | some l =>
  match takePlus isDigitC l with
  | none => none
  | some (_, l) =>
  match eatCommaSpaces l with
  | none => none
  | some l =>
  match eat4Digits l with
  | none => none
  | some (_, l) => some l

/-- Consume `\d+:\d+\s+[AP]M` case-insensitively, returning the remainder. -/
def eatTimeCIRem (l : List Char) : Option (List Char) :=
  match takePlus isDigitC l with
  | none => none
  | some (_, l) =>
  match eatChar ':' l with
  | none => none
  | some l =>
  match takePlus isDigitC l with
  | none => none
  | some (_, l) =>
  match eatPlus isSpaceC l with
  | none => none
  | some l => eatAMPMci l

/-- Consume `\d+:\d+\s+[AP]M` exactly, returning the remainder. -/
def eatTimeExactRem (l : List Char) : Option (List Char) :=
  match takePlus isDigitC l with
  | none => none
  | some (_, l) =>
  match eatChar ':' l with
  | none => none
  | some l =>
  match takePlus isDigitC l with
  | none => none
  | some (_, l) =>
  match eatPlus isSpaceC l with
  | none => none
  | some l =>
  match eatAMPM l with
  | none => none
  | some (_, rest) => some rest

/-- Consume `,\s+at\s+\d+:\d+\s+[AP]M\s+Local\s+Time` case-insensitively
(the tail of the labelled start/end group). -/
def eatDatedTailCI (l : List Char) : Option (List Char) :=
  match eatCommaSpaces l with
  | none => none
  | some l =>
  match eatLitCI "at".data l with
  | none => none
  | some l =>
  match eatPlus isSpaceC l with
  | none => none
  | some l =>
  match eatTimeCIRem l with
  | none => none
  | some l =>
  match eatPlus isSpaceC l with
  | none => none
  | some l =>
  match eatLitCI "local".data l with
  | none => none
  | some l =>
  match eatPlus isSpaceC l with
  | none => none
  | some l => eatLitCI "time".data l

/-- The capture group of the `Starts?:`/`Ends?:` patterns:
`[A-Za-z]+,\s+[A-Za-z]+\s+\d+,\s+\d{4},\s+at\s+\d+:\d+\s+[AP]M\s+Local\s+Time`. -/
def eatLabelGroupCI (l : List Char) : Option (List Char) :=
  match eatFullDatePrefix l with
  | none => none
  | some l => eatDatedTailCI l

/-- Match `LABELs?:\s+GROUP` at the head of `l` under `re.IGNORECASE`,
returning the captured group text. -/
def matchLabelAt (label : List Char) (l : List Char) : Option (List Char) :=
  match eatLitCI label l with
  | none => none
  | some l0 =>
  let l1 := match l0 with
    | x :: rest => if x.toLower = 's' then rest else l0
    | [] => l0
  match eatChar ':' l1 with
  | none => none
  | some l2 =>
  match eatPlus isSpaceC l2 with
  | none => none
  | some g =>
  match eatLabelGroupCI g with
  | none => none
  | some rem => some (g.take (g.length - rem.length))

def searchLabel (label : List Char) : List Char → Option (List Char)
  | [] => none
  | c :: cs =>
    match matchLabelAt label (c :: cs) with
    | some g => some g
    | none => searchLabel label cs

/-- `re.search(start_pattern, text, re.IGNORECASE)`, start capture. -/
def searchStartLabel (l : List Char) : Option (List Char) := searchLabel "start".data l

/-- `re.search(end_pattern, text, re.IGNORECASE)`, end capture. -/
def searchEndLabel (l : List Char) : Option (List Char) := searchLabel "end".data l

/-- One case-sensitive match of
`([A-Za-z]+,\s+[A-Za-z]+\s+\d+,\s+\d{4},\s+at\s+\d+:\d+\s+[AP]M)\s+Local\s+Time`
at the head of `l`: capture and remainder after the whole match. -/
def matchDateAt (l : List Char) : Option (List Char × List Char) :=
  match eatFullDatePrefix l with
  | none => none
  | some l1 =>
  match eatCommaSpaces l1 with
  | none => none
  | some l2 =>
  match eatAtSpaces l2 with
  | none => none
  | some l3 =>
  match eatTimeExactRem l3 with
  | none => none
  | some rem1 =>
  match eatPlus isSpaceC rem1 with
  | none => none
  | some r2 =>
  match eatLit "Local".data r2 with
  | none => none
  | some r3 =>
  match eatPlus isSpaceC r3 with
  | none => none
  | some r4 =>
  match eatLit "Time".data r4 with
  | none => none
  | some rem2 => some (l.take (l.length - rem1.length), rem2)

/-- `re.findall(date_pattern, text)`: non-overlapping left-to-right scan,
resuming after each whole match. -/
def findAllGo : Nat → List Char → List (List Char)
  | 0, _ => []
  | _ + 1, [] => []
  | fuel + 1, c :: cs =>
    match matchDateAt (c :: cs) with
    | some (cap, rem) => cap :: findAllGo fuel rem
    | none => findAllGo fuel cs

def findAllDates (l : List Char) : List (List Char) := findAllGo l.length l

/-- Match date-range pattern 1,
`from\s+[A-Za-z]+,\s+[A-Za-z]+\s+\d+,\s+\d{4}\s+to\s+([A-Za-z]+,\s+[A-Za-z]+\s+\d+,\s+\d{4}),?\s+at\s+(\d+:\d+\s+[AP]M)`
(ignorecase) at the head of `l`, returning the two captures. -/
def matchRange1At (l : List Char) : Option (List Char × List Char) :=
  match eatLitCI "from".data l with
  | none => none
  | some l =>
  match eatPlus isSpaceC l with
  | none => none
  | some l =>
  match eatFullDatePrefix l with
  | none => none
  | some l =>
  match eatPlus isSpaceC l with
  | none => none
  | some l =>
  match eatLitCI "to".data l with
  | none => none
  | some l =>
  match eatPlus isSpaceC l with
  | none => none
  | some g1 =>
  match eatFullDatePrefix g1 with
  | none => none
  | some rem1 =>
  let cap1 := g1.take (g1.length - rem1.length)
  let l4 := match rem1 with
    | ',' :: rest => rest
    | _ => rem1
  match eatPlus isSpaceC l4 with
  | none => none
  | some l5 =>
  match eatLitCI "at".data l5 with
  | none => none
  | some l6 =>
  match eatPlus isSpaceC l6 with
  | none => none
  | some g2 =>
  match eatTimeCIRem g2 with
  | none => none
  | some rem2 => some (cap1, g2.take (g2.length - rem2.length))

def searchRange1 : List Char → Option (List Char × List Char)
  | [] => none
  | c :: cs =>
    match matchRange1At (c :: cs) with
    | some r => some r
    | none => searchRange1 cs

/-- Consume `[A-Za-z]+\s+\d+,\s+\d{4}` (month day, year — no weekday). -/
def eatMDYPrefix (l : List Char) : Option (List Char) :=
  match takePlus isAlphaC l with
  | none => none
  | some (_, l) =>
  match eatPlus isSpaceC l with
  | none => none
  | some l =>
  match takePlus isDigitC l with
  | none => none
  | some (_, l) =>
  match eatCommaSpaces l with
  | none => none
  | some l =>
  match eat4Digits l with
  | none => none
  | some (_, l) => some l

/-- Match date-range pattern 2,
`from\s+([A-Za-z]+\s+\d+,\s+\d{4})\s+to\s+([A-Za-z]+\s+\d+,\s+\d{4})`
(ignorecase) at the head of `l`, returning the second capture. -/
def matchRange2At (l : List Char) : Option (List Char) :=
  match eatLitCI "from".data l with
  | none => none
  | some l =>
  match eatPlus isSpaceC l with
  | none => none
  | some l =>
  match eatMDYPrefix l with
  | none => none
  | some l =>
  match eatPlus isSpaceC l with
  | none => none
  | some l =>
  match eatLitCI "to".data l with
  | none => none
  | some l =>
  match eatPlus isSpaceC l with
  | none => none
  | some g2 =>
  match eatMDYPrefix g2 with
  | none => none
  | some rem => some (g2.take (g2.length - rem.length))

def searchRange2 : List Char → Option (List Char)
  | [] => none
  | c :: cs =>
    match matchRange2At (c :: cs) with
    | some r => some r
    | none => searchRange2 cs

/-! Title cleanup: `re.sub(r'\s*-\s*Leek Duck.*$', '', t)` and
`re.sub(r'\s*\|\s*Pok..mon GO.*$', '', t)`.  Since `.` stops at a newline
and `$` only matches at the end (or before one final newline), a match can
only begin where spaces, the separator, spaces and the site literal are
followed by newline-free text reaching the end. -/

def subSuffixAt (mid : Char) (pat : List Char) (l : List Char) : Option (List Char) :=
  let l1 := l.dropWhile isSpaceC
  match eatChar mid l1 with
  | none => none
  | some l2 =>
    let l3 := l2.dropWhile isSpaceC
    if pat.isPrefixOf l3 then
      let rest := (l3.drop pat.length).dropWhile (fun c => c ≠ '\n')
      if rest.isEmpty || rest == ['\n'] then some rest else none
    else none

def reSubSuffix (mid : Char) (pat : List Char) : List Char → List Char
  | [] => []
  | c :: cs =>
    match subSuffixAt mid pat (c :: cs) with
    | some rest => rest
    | none => c :: reSubSuffix mid pat cs

/-- The mangled `Pok..mon GO` literal exactly as it appears in the source. -/
def pokemonGoPat : List Char :=
  ['P', 'o', 'k', Char.ofNat 0xc3, Char.ofNat 0xa9, 'm', 'o', 'n', ' ', 'G', 'O']

def cleanTitle (t : String) : String :=
  String.mk (reSubSuffix '|' pokemonGoPat (reSubSuffix '-' "Leek Duck".data t.data))

/-! The detail page as the `MarkupParser` collaborator presents it:
heading/title text (already `get_text(strip=True)`-ed), the whole page's
plain text, and CSS selector lookup returning an element whose `<p>`
descendants have the given texts. -/

structure Elem where
  paragraphs : List String

structure Page where
  heading : Option String
  docTitle : Option String
  textContent : String
  selectOne : String → Option Elem

/-- The paragraph filter of `fetch_event_details`:
`text and len(text) > 20 and 'cookie' not in text.lower()`. -/
def qualifies (t : String) : Bool :=
  !(t == "") && decide (20 < t.length) && !(containsKw (lowerChars t.data) "cookie")

/-- Filter, keep the first 5, join with a blank line. -/
def descFromParagraphs (ps : List String) : String :=
  String.intercalate "\n\n" ((ps.filter qualifies).take 5)

def descSelectors : List String :=
  ["div.entry-content", "div.event-description", "div.content", "article", "main"]

/-- The selector loop: the `break` sits inside `if paragraphs:`, so a
selector that matches but owns no `<p>` nodes does not stop the loop. -/
def descLoop (page : Page) : List String → String
  | [] => ""
  | sel :: rest =>
    match page.selectOne sel with
    | none => descLoop page rest
    | some el =>
      match el.paragraphs with
      | [] => descLoop page rest
      | _ :: _ => descFromParagraphs el.paragraphs

def extractDescription (page : Page) : String := descLoop page descSelectors

/-- The result dict of `fetch_event_details`. -/
structure Details where
  title : String
  start : Option Aware
  endTime : Option Aware
  description : String
deriving Repr

/-- Start extraction: label first, else scan for all full-form dates.
Returns the start and the `dates` local variable (`none` = never assigned,
Python `NameError` on use). -/
def extractStartPhase (text : List Char) (clk : Clock) :
    Except Unit (Option Aware × Option (List (List Char))) :=
  match searchStartLabel text with
  | some g =>
    match parseDatetime (String.mk g) false clk with
    | .error e => .error e
    | .ok r => .ok (r, none)
  | none =>
    match findAllDates text with
    | [] => .ok (none, some (findAllDates text))
    | d :: _ =>
      match parseDatetime (String.mk d) false clk with
      | .error e => .error e
      | .ok r => .ok (r, some (findAllDates text))

/-- End extraction: `Ends?:` label, then range pattern 1, then range
pattern 2 reusing the start's time of day, then the last scanned date.
Reading `dates` when it was never assigned raises `NameError`. -/
def extractEndPhase (text : List Char) (start : Option Aware)
    (dates : Option (List (List Char))) (clk : Clock) : Except Unit (Option Aware) :=
  match searchEndLabel text with
  | some g => parseDatetime (String.mk g) false clk
  | none =>
  match searchRange1 text with
  | some (g1, g2) =>
    parseDatetime (String.mk (g1 ++ ", at ".data ++ g2 ++ " Local Time".data)) false clk
  | none =>
  match searchRange2 text, start with
  | some g2, some st =>
    parseDatetime
      (String.mk ("Monday, ".data ++ g2 ++ ", at ".data ++ (fmtTimeIMp st).data ++
        " Local Time".data)) false clk
  | _, _ =>
    match dates with
    | none => .error ()
    | some ds =>
      if 2 ≤ ds.length then
        match ds.getLast? with
        | some d => parseDatetime (String.mk d) false clk
        | none => .ok none
      else .ok none

/-- The body of `fetch_event_details` inside its `try`. -/
def extractDetailsCore (page : Page) (clk : Clock) : Except Unit Details :=
  let title :=
    match page.heading with
    | some t => cleanTitle t
    | none =>
      match page.docTitle with
      | some t => cleanTitle t
      | none => ""
  let text := page.textContent.data
  match extractStartPhase text clk with
  | .error e => .error e
  | .ok (start, dates) =>
  match extractEndPhase text start dates clk with
  | .error e => .error e
  | .ok stop => .ok ⟨title, start, stop, extractDescription page⟩

/-- `fetch_event_details`: the catch-all `except` turns any exception into
the all-empty result. -/
def extractDetails (page : Page) (clk : Clock) : Details :=
  match extractDetailsCore page clk with
  | .ok d => d
  | .error _ => ⟨"", none, none, ""⟩

/-! The event assembler `scrape_events`, over an abstract per-URL detail
fetcher (the network and markup collaborators composed). -/

structure Link where
  href : String
  text : String
deriving DecidableEq, Repr

def urlOf (l : Link) : String := "https://leekduck.com" ++ l.href

structure EventRecord where
  title : String
  start : Option Aware
  endTime : Aware
  description : String
  url : String
deriving DecidableEq, Repr

/-- `title_text.split('\n')[0] if '\n' in title_text else title_text`. -/
def firstLine (t : String) : String := String.mk (t.data.takeWhile (fun c => c ≠ '\n'))

/-- `details['title'] if details['title'] else fallback_title`. -/
def chooseTitle (d : Details) (l : Link) : String :=
  if d.title = "" then firstLine l.text else d.title

/-- The record appended for one candidate: icon-prefixed title, the dict's
start, the end defaulted to one hour after start when unresolved, and a
placeholder description when empty. -/
def mkRecord (d : Details) (l : Link) (s : Aware) : EventRecord :=
  { title := getEventIcon (chooseTitle d l) ++ " " ++ chooseTitle d l,
    start := d.start,
    endTime := (match d.endTime with | some e => e | none => s.addOneHour),
    description := (if d.description = "" then "Event details from LeekDuck"
                    else d.description),
    url := urlOf l }

/-- One loop iteration after the dedup check: fetch details, choose the
title, prefix the icon, drop if no start, default the end to one hour. -/
def recordFor (fetch : String → Details) (l : Link) : Option EventRecord :=
  match (fetch (urlOf l)).start with
  | none => none
  | some s => some (mkRecord (fetch (urlOf l)) l s)

def assembleGo (fetch : String → Details) : List String → List Link → List EventRecord
  | _, [] => []
  | seen, l :: rest =>
    if urlOf l ∈ seen then assembleGo fetch seen rest
    else
      match recordFor fetch l with
      | some r => r :: assembleGo fetch (urlOf l :: seen) rest
      | none => assembleGo fetch (urlOf l :: seen) rest

/-- The per-link loop of `scrape_events` over already-filtered candidate
links. -/
def assemble (fetch : String → Details) (links : List Link) : List EventRecord :=
  assembleGo fetch [] links

/-- The candidate filter of `scrape_events`. -/
def eventLinkFilter (links : List Link) : List Link :=
  links.filter (fun a =>
    a.href.startsWith "/events/" && !(a.href == "/events/") && decide (10 < a.href.length))

def scrapeEvents (fetch : String → Details) (links : List Link) : List EventRecord :=
  assemble fetch (eventLinkFilter links)

/-- Keep the first link for each canonical URL, preserving order (used to
characterise the dedup behaviour of `assemble`). -/
def dedupByUrlGo : List String → List Link → List Link
  | _, [] => []
  | seen, l :: rest =>
    if urlOf l ∈ seen then dedupByUrlGo seen rest
    else l :: dedupByUrlGo (urlOf l :: seen) rest

def dedupByUrl (links : List Link) : List Link := dedupByUrlGo [] links

/-- The seen-URL set after scanning a list of candidate links. -/
def seenAfter (seen : List String) : List Link → List String
  | [] => seen
  | l :: rest =>
    if urlOf l ∈ seen then seenAfter seen rest else seenAfter (urlOf l :: seen) rest

/-- Modelled from the spec (claim C9's reading): description extraction
stops at the first selector that matches structurally, regardless of
paragraph yield. -/
def descFirstStructuralGo (page : Page) : List String → String
  | [] => ""
  | sel :: rest =>
    match page.selectOne sel with
    | none => descFirstStructuralGo page rest
    | some el => descFromParagraphs el.paragraphs

def descByFirstStructural (page : Page) : String := descFirstStructuralGo page descSelectors

/-- The amended policy: the first selector that matches structurally and
owns at least one paragraph node wins. -/
def descFirstWithParsGo (page : Page) : List String → String
  | [] => ""
  | sel :: rest =>
    match page.selectOne sel with
    | none => descFirstWithParsGo page rest
    | some el =>
      if el.paragraphs = [] then descFirstWithParsGo page rest
      else descFromParagraphs el.paragraphs

def descByFirstWithParagraphs (page : Page) : String := descFirstWithParsGo page descSelectors

/-! Concrete fixtures used by the witness and counterexample theorems. -/

def clk2025Jan1 : Clock := ⟨2025, (localize ⟨2025, 1, 1, 0, 0⟩).utcMin⟩

def clk2025Nov1 : Clock := ⟨2025, (localize ⟨2025, 11, 1, 0, 0⟩).utcMin⟩

def fullFormExample : String := "Tuesday, October 7, 2025, at 10:00 AM Local Time"

def fullFormReworded : String := "Fooday, October 7, 2025, at 10:00 AM Local Time"

def shortFormExample : String := "Mon, Oct 13, at 7:00 PM Local Time"

def badMonthExample : String := "Mon, Foo 13, at 7:00 PM Local Time"

def c4Text : String := "Starts: Tuesday, October 7, 2025, at 10:00 AM Local Time"

def c4Page : Page := ⟨none, none, c4Text, fun _ => none⟩

def linkA : Link := ⟨"/events/test-event-one/", "Test Event One"⟩

def linkB : Link := ⟨"/events/test-event-two/", "Test Event Two"⟩

def okDetails : Details := ⟨"A", some (localize ⟨2025, 10, 7, 10, 0⟩), none, ""⟩

def fetchAB : String → Details :=
  fun u => if u = urlOf linkA then okDetails else ⟨"B", none, none, ""⟩

def c9Par : String := "This paragraph is long enough to stay in the output."

def c9Page : Page :=
  ⟨none, none, "",
   fun sel =>
     if sel = "div.entry-content" then some ⟨[]⟩
     else if sel = "div.event-description" then some ⟨[c9Par]⟩
     else none⟩

/-! Helper lemmas (shared, not tied to any one claim). -/

theorem strptimeShort_year {r : ShortRest} {y : Nat} {n : Naive}
    (h : strptimeShort r y = some n) : n.year = y := by
  unfold strptimeShort at h
  split at h
  · split at h
    · exact absurd h (by simp)
    · unfold mkNaiveChecked at h
      split at h
      · split at h
        · injection h with h2
          subst h2
          rfl
        · exact absurd h (by simp)
      · exact absurd h (by simp)
  · exact absurd h (by simp)

theorem preprocess_empty : preprocess "" = [] := rfl

/-- Claim C1.  Full-form round trip: the example parses to exactly
2025-10-07 10:00 localized to Europe/Brussels whatever the clock says, and
any input on which the full-form pattern matches parses independently of
the `preferFuture` flag (and of the clock). -/
theorem c1_full_form_roundtrip :
    (∀ clk : Clock,
      parseDatetime fullFormExample false clk =
        .ok (some (localize ⟨2025, 10, 7, 10, 0⟩))) ∧
    (∀ (s : String) (pf₁ pf₂ : Bool) (clk₁ clk₂ : Clock) (c : FullCaps),
      searchFull (preprocess s) = some c →
      parseDatetime s pf₁ clk₁ = parseDatetime s pf₂ clk₂) := by
  constructor
  · intro clk
    rfl
  · intro s pf₁ pf₂ clk₁ clk₂ c h
    by_cases hs : s = ""
    · subst hs
      rw [preprocess_empty] at h
      exact absurd h (by simp [searchFull])
    · unfold parseDatetime
      rw [if_neg hs, if_neg hs, h]

/-- Witness for C1 at a concrete full-form input with two different flags
and clocks. -/
theorem c1_full_form_roundtrip_witness :
    parseDatetime fullFormExample true clk2025Jan1 =
      parseDatetime fullFormExample false clk2025Nov1 :=
  c1_full_form_roundtrip.2 fullFormExample true false clk2025Jan1 clk2025Nov1 _ rfl

/-- Claim C2.  Short-form year inference: the example with "today" fixed at
2025-01-01 resolves to year 2025; in general a short-form match is resolved
with the current system year, and re-resolved with the next year exactly
when `preferFuture` holds and the first resolution is strictly before "now"
in the reference timezone. -/
theorem c2_short_form_future_inference :
    (parseDatetime shortFormExample true clk2025Jan1 =
      .ok (some (localize ⟨2025, 10, 13, 19, 0⟩))) ∧
    (∀ (s : String) (pf : Bool) (clk : Clock) (c : ShortCaps) (n : Naive),
      searchFull (preprocess s) = none →
      searchShort (preprocess s) = some c →
      strptimeShort c.rest clk.sysYear = some n →
      ¬(pf = true ∧ (localize n).utcMin < clk.bruNowUtc) →
      parseDatetime s pf clk = .ok (some (localize n)) ∧ n.year = clk.sysYear) ∧
    (∀ (s : String) (clk : Clock) (c : ShortCaps) (n n2 : Naive),
      searchFull (preprocess s) = none →
      searchShort (preprocess s) = some c →
      strptimeShort c.rest clk.sysYear = some n →
      (localize n).utcMin < clk.bruNowUtc →
      strptimeShort c.rest (clk.sysYear + 1) = some n2 →
      parseDatetime s true clk = .ok (some (localize n2)) ∧
        n2.year = clk.sysYear + 1) := by
  refine ⟨rfl, ?_, ?_⟩
  · intro s pf clk c n hf hsh hst hnot
    have hs : ¬s = "" := by
      intro hs
      subst hs
      rw [preprocess_empty] at hsh
      exact absurd hsh (by simp [searchShort])
    refine ⟨?_, strptimeShort_year hst⟩
    unfold parseDatetime
    rw [if_neg hs, hf, hsh]
    dsimp only
    rw [hst]
    dsimp only
    rw [if_neg hnot]
  · intro s clk c n n2 hf hsh hst hlt hst2
    have hs : ¬s = "" := by
      intro hs
      subst hs
      rw [preprocess_empty] at hsh
      exact absurd hsh (by simp [searchShort])
    refine ⟨?_, strptimeShort_year hst2⟩
    unfold parseDatetime
    rw [if_neg hs, hf, hsh]
    dsimp only
    rw [hst]
    dsimp only
    rw [if_pos ⟨rfl, hlt⟩, hst2]

/-- Witness for C2: with "now" moved to 2025-11-01 the same short-form
input is in the past, so it re-resolves to 2026. -/
theorem c2_short_form_future_inference_witness :
    parseDatetime shortFormExample true clk2025Nov1 =
      .ok (some (localize ⟨2026, 10, 13, 19, 0⟩)) :=
  (c2_short_form_future_inference.2.2 shortFormExample clk2025Nov1 _ _ _
    rfl rfl rfl (by decide) rfl).1

/-- Claim C3.  The classifier is the ordered first-match rule list of the
spec, and the two priority examples classify as claimed. -/
theorem c3_classifier_priority :
    (∀ t : String, classify t = classifyByRules t) ∧
    classify "Mega Raid Battles" = CategoryTag.megaRaid ∧
    classify "5-Star Raid Battles" = CategoryTag.tieredRaidBattle := by
  refine ⟨?_, by decide, by decide⟩
  intro t
  simp only [classify, classifyByRules, classifyRulesGo, specRules, raidTiers,
    List.any_cons, List.any_nil, Bool.or_false, Bool.or_assoc]

/-- Claim C4 (code bug).  On a page whose text carries only a labelled
start, the start does resolve in isolation, but the end-extraction chain
reads the never-assigned `dates` local (NameError), the catch-all returns
the all-empty result, and the assembler drops the record instead of
emitting it with the one-hour default end. -/
theorem c4_starts_label_without_end_drops_record :
    (∃ g, searchStartLabel c4Text.data = some g ∧
      parseDatetime (String.mk g) false clk2025Jan1 =
        .ok (some (localize ⟨2025, 10, 7, 10, 0⟩))) ∧
    extractDetails c4Page clk2025Jan1 = ⟨"", none, none, ""⟩ ∧
    assemble (fun _ => extractDetails c4Page clk2025Jan1) [linkA] = [] :=
  ⟨⟨"Tuesday, October 7, 2025, at 10:00 AM Local Time".data, rfl, rfl⟩, rfl, rfl⟩

/-- Counterexample to claim C9 as stated: the first selector matches
structurally (an element with no paragraph nodes), yet the extractor falls
back to the second selector and returns its paragraph. -/
theorem c9_counterexample :
    descByFirstStructural c9Page = "" ∧
    extractDescription c9Page = c9Par ∧
    extractDescription c9Page ≠ descByFirstStructural c9Page :=
  ⟨rfl, rfl, by decide⟩

theorem descLoop_eq_firstWithPars (page : Page) :
    ∀ sels, descLoop page sels = descFirstWithParsGo page sels := by
  intro sels
  induction sels with
  | nil => rfl
  | cons sel rest ih =>
    unfold descLoop descFirstWithParsGo
    cases h : page.selectOne sel with
    | none => exact ih
    | some el =>
      dsimp only
      cases hp : el.paragraphs with
      | nil =>
        dsimp only
        rw [if_pos rfl]
        exact ih
      | cons p ps =>
        dsimp only
        rw [if_neg (by simp)]

/-- Claim C9, amended: description extraction stops at the first selector
that matches structurally and owns at least one paragraph node (even when
every paragraph is filtered out afterwards); a selector matching an element
without paragraph nodes is skipped. -/
theorem c9_first_selector_with_paragraph_nodes (page : Page) :
    extractDescription page = descByFirstWithParagraphs page :=
  descLoop_eq_firstWithPars page descSelectors

theorem descLoop_empty_or (page : Page) :
    ∀ sels, descLoop page sels = "" ∨
      ∃ ps, descLoop page sels = descFromParagraphs ps := by
  intro sels
  induction sels with
  | nil => exact Or.inl rfl
  | cons sel rest ih =>
    unfold descLoop
    cases h : page.selectOne sel with
    | none => exact ih
    | some el =>
      dsimp only
      cases hp : el.paragraphs with
      | nil =>
        dsimp only
        exact ih
      | cons p ps =>
        dsimp only
        exact Or.inr ⟨p :: ps, rfl⟩

/-- Claim C7.  The retained description paragraphs are at most five, each
longer than 20 characters and free of the substring "cookie"
(case-insensitively), joined with a blank-line separator; and every
extracted description is either empty or such a join. -/
theorem c7_description_paragraph_filter :
    (∀ ps : List String,
      ((ps.filter qualifies).take 5).length ≤ 5 ∧
      (((ps.filter qualifies).take 5).all fun p =>
        decide (20 < p.length) && !(containsKw (lowerChars p.data) "cookie")) = true ∧
      descFromParagraphs ps = String.intercalate "\n\n" ((ps.filter qualifies).take 5)) ∧
    (∀ page : Page, extractDescription page = "" ∨
      ∃ ps, extractDescription page = descFromParagraphs ps) := by
  constructor
  · intro ps
    refine ⟨?_, ?_, rfl⟩
    · exact List.length_take_le 5 (ps.filter qualifies)
    · rw [List.all_eq_true]
      intro p hp
      have hq : qualifies p = true := List.of_mem_filter (List.mem_of_mem_take hp)
      unfold qualifies at hq
      simp only [Bool.and_eq_true] at hq
      rw [Bool.and_eq_true]
      exact ⟨hq.1.2, hq.2⟩
  · intro page
    exact descLoop_empty_or page descSelectors

theorem recordFor_some {fetch : String → Details} {l : Link} {r : EventRecord}
    (h : recordFor fetch l = some r) :
    r.url = urlOf l ∧ r.start = (fetch (urlOf l)).start ∧
      ∃ s, (fetch (urlOf l)).start = some s := by
  unfold recordFor at h
  cases hs : (fetch (urlOf l)).start with
  | none =>
    rw [hs] at h
    exact absurd h (by simp)
  | some s =>
    rw [hs] at h
    injection h with h2
    subst h2
    exact ⟨rfl, hs, s, rfl⟩

theorem mem_assembleGo {fetch : String → Details} {r : EventRecord} :
    ∀ {links : List Link} {seen : List String}, r ∈ assembleGo fetch seen links →
      ∃ l, recordFor fetch l = some r := by
  intro links
  induction links with
  | nil =>
    intro seen h
    exact absurd h (by simp [assembleGo])
  | cons l rest ih =>
    intro seen h
    unfold assembleGo at h
    by_cases hm : urlOf l ∈ seen
    · rw [if_pos hm] at h
      exact ih h
    · rw [if_neg hm] at h
      cases hrf : recordFor fetch l with
      | none =>
        rw [hrf] at h
        exact ih h
      | some rec0 =>
        rw [hrf] at h
        rcases List.mem_cons.mp h with h1 | h2
        · subst h1
          exact ⟨l, hrf⟩
        · exact ih h2

/-- Claim C5.  Drop policy: every assembled record has a resolved start,
and no record is emitted for a URL whose extracted details lack one. -/
theorem c5_drop_policy :
    (∀ (fetch : String → Details) (links : List Link),
      ((assemble fetch links).all fun r => r.start.isSome) = true) ∧
    (∀ (fetch : String → Details) (links : List Link) (u : String),
      (fetch u).start = none →
      ((assemble fetch links).all fun r => !(r.url == u)) = true) := by
  constructor
  · intro fetch links
    rw [List.all_eq_true]
    intro r hr
    obtain ⟨l, hl⟩ := mem_assembleGo hr
    obtain ⟨-, hstart, s, hs⟩ := recordFor_some hl
    rw [hstart, hs]
    rfl
  · intro fetch links u hu
    rw [List.all_eq_true]
    intro r hr
    obtain ⟨l, hl⟩ := mem_assembleGo hr
    obtain ⟨hurl, -, s, hs⟩ := recordFor_some hl
    rw [hurl]
    by_cases h : urlOf l = u
    · rw [h, hu] at hs
      exact absurd hs (by simp)
    · simp [h]

/-- Witness for C5: a concrete fetcher yielding no start for the second
link's URL never contributes a record with that URL. -/
theorem c5_drop_policy_witness :
    ((assemble fetchAB [linkA, linkB]).all fun r => !(r.url == urlOf linkB)) = true :=
  c5_drop_policy.2 fetchAB [linkA, linkB] (urlOf linkB) rfl

theorem recordFor_none {fetch : String → Details} {l : Link} :
    recordFor fetch l = none ↔ (fetch (urlOf l)).start = none := by
  unfold recordFor
  cases hs : (fetch (urlOf l)).start <;> simp

theorem assembleGo_eq_filterMap (fetch : String → Details) :
    ∀ (links : List Link) (seen : List String),
      assembleGo fetch seen links = (dedupByUrlGo seen links).filterMap (recordFor fetch) := by
  intro links
  induction links with
  | nil => intro seen; rfl
  | cons l rest ih =>
    intro seen
    unfold assembleGo dedupByUrlGo
    by_cases hm : urlOf l ∈ seen
    · rw [if_pos hm, if_pos hm]
      exact ih seen
    · rw [if_neg hm, if_neg hm, List.filterMap_cons]
      cases hrf : recordFor fetch l with
      | none =>
        dsimp only
        exact ih _
      | some r0 =>
        dsimp only
        rw [ih _]

theorem dedupGo_urls_nodup :
    ∀ (links : List Link) (seen : List String),
      ((dedupByUrlGo seen links).map urlOf).Nodup ∧
        ∀ u ∈ (dedupByUrlGo seen links).map urlOf, u ∉ seen := by
  intro links
  induction links with
  | nil => intro seen; exact ⟨List.nodup_nil, by simp [dedupByUrlGo]⟩
  | cons l rest ih =>
    intro seen
    unfold dedupByUrlGo
    by_cases hm : urlOf l ∈ seen
    · rw [if_pos hm]
      exact ih seen
    · rw [if_neg hm]
      obtain ⟨hnd, hni⟩ := ih (urlOf l :: seen)
      constructor
      · rw [List.map_cons, List.nodup_cons]
        exact ⟨fun hmem => (hni _ hmem) (List.mem_cons_self _ _), hnd⟩
      · intro u hu
        rw [List.map_cons] at hu
        rcases List.mem_cons.mp hu with h1 | h2
        · subst h1
          exact hm
        · exact fun hus => (hni u h2) (List.mem_cons_of_mem _ hus)

theorem filterMap_url_sublist (fetch : String → Details) :
    ∀ links : List Link,
      ((links.filterMap (recordFor fetch)).map (fun r => r.url)).Sublist
        (links.map urlOf) := by
  intro links
  induction links with
  | nil => simp
  | cons l rest ih =>
    rw [List.filterMap_cons, List.map_cons]
    cases hrf : recordFor fetch l with
    | none =>
      dsimp only
      exact ih.cons _
    | some r0 =>
      dsimp only
      rw [List.map_cons, (recordFor_some hrf).1]
      exact ih.cons₂ _

theorem mem_seenAfter {u : String} :
    ∀ (links : List Link) (seen : List String), u ∈ seen → u ∈ seenAfter seen links := by
  intro links
  induction links with
  | nil => intro seen h; exact h
  | cons l rest ih =>
    intro seen h
    unfold seenAfter
    by_cases hm : urlOf l ∈ seen
    · rw [if_pos hm]
      exact ih seen h
    · rw [if_neg hm]
      exact ih _ (List.mem_cons_of_mem _ h)

theorem urlOf_mem_seenAfter {l : Link} :
    ∀ (links : List Link) (seen : List String), l ∈ links → urlOf l ∈ seenAfter seen links := by
  intro links
  induction links with
  | nil => intro seen h; exact absurd h (by simp)
  | cons a rest ih =>
    intro seen h
    unfold seenAfter
    rcases List.mem_cons.mp h with h1 | h2
    · subst h1
      by_cases hm : urlOf l ∈ seen
      · rw [if_pos hm]
        exact mem_seenAfter rest seen hm
      · rw [if_neg hm]
        exact mem_seenAfter rest _ (List.mem_cons_self _ _)
    · by_cases hm : urlOf a ∈ seen
      · rw [if_pos hm]
        exact ih seen h2
      · rw [if_neg hm]
        exact ih _ h2

theorem dedupGo_eq_nil :
    ∀ (links : List Link) (seen : List String),
      (∀ l ∈ links, urlOf l ∈ seen) → dedupByUrlGo seen links = [] := by
  intro links
  induction links with
  | nil => intro seen _; rfl
  | cons l rest ih =>
    intro seen h
    unfold dedupByUrlGo
    rw [if_pos (h l (List.mem_cons_self _ _))]
    exact ih seen (fun x hx => h x (List.mem_cons_of_mem _ hx))

theorem dedupGo_cons_mem {l : Link} {seen : List String} {rest : List Link}
    (h : urlOf l ∈ seen) : dedupByUrlGo seen (l :: rest) = dedupByUrlGo seen rest := by
  conv_lhs => unfold dedupByUrlGo
  rw [if_pos h]

theorem dedupGo_cons_not_mem {l : Link} {seen : List String} {rest : List Link}
    (h : urlOf l ∉ seen) :
    dedupByUrlGo seen (l :: rest) = l :: dedupByUrlGo (urlOf l :: seen) rest := by
  conv_lhs => unfold dedupByUrlGo
  rw [if_neg h]

theorem seenAfter_cons_mem {l : Link} {seen : List String} {rest : List Link}
    (h : urlOf l ∈ seen) : seenAfter seen (l :: rest) = seenAfter seen rest := by
  conv_lhs => unfold seenAfter
  rw [if_pos h]

theorem seenAfter_cons_not_mem {l : Link} {seen : List String} {rest : List Link}
    (h : urlOf l ∉ seen) :
    seenAfter seen (l :: rest) = seenAfter (urlOf l :: seen) rest := by
  conv_lhs => unfold seenAfter
  rw [if_neg h]

theorem dedupGo_append :
    ∀ (xs : List Link) (seen : List String) (ys : List Link),
      dedupByUrlGo seen (xs ++ ys) =
        dedupByUrlGo seen xs ++ dedupByUrlGo (seenAfter seen xs) ys := by
  intro xs
  induction xs with
  | nil => intro seen ys; rfl
  | cons l rest ih =>
    intro seen ys
    rw [List.cons_append]
    by_cases hm : urlOf l ∈ seen
    · rw [dedupGo_cons_mem hm, dedupGo_cons_mem hm, seenAfter_cons_mem hm]
      exact ih seen ys
    · rw [dedupGo_cons_not_mem hm, dedupGo_cons_not_mem hm, seenAfter_cons_not_mem hm,
        List.cons_append, ih _ ys]

theorem count_dedup_urls :
    ∀ (links : List Link) (seen : List String) (u : String), u ∉ seen →
      u ∈ links.map urlOf → ((dedupByUrlGo seen links).map urlOf).count u = 1 := by
  intro links
  induction links with
  | nil =>
    intro seen u _ h
    exact absurd h (by simp)
  | cons l rest ih =>
    intro seen u hus hu
    rw [List.map_cons] at hu
    unfold dedupByUrlGo
    by_cases hm : urlOf l ∈ seen
    · rw [if_pos hm]
      rcases List.mem_cons.mp hu with h1 | h2
      · subst h1
        exact absurd hm hus
      · exact ih seen u hus h2
    · rw [if_neg hm, List.map_cons]
      by_cases he : u = urlOf l
      · rw [he, List.count_cons_self]
        have hz : urlOf l ∉ (dedupByUrlGo (urlOf l :: seen) rest).map urlOf :=
          fun hmem =>
            (dedupGo_urls_nodup rest (urlOf l :: seen)).2 _ hmem (List.mem_cons_self _ _)
        rw [List.count_eq_zero.mpr hz]
      · rw [List.count_cons_of_ne he]
        apply ih (urlOf l :: seen) u
        · intro hin
          rcases List.mem_cons.mp hin with h1 | h2
          · exact he h1
          · exact hus h2
        · rcases List.mem_cons.mp hu with h1 | h2
          · exact absurd h1 he
          · exact h2

theorem count_filterMap_url (fetch : String → Details) :
    ∀ (links : List Link) (u : String), (fetch u).start.isSome = true →
      ((links.filterMap (recordFor fetch)).map (fun r => r.url)).count u =
        (links.map urlOf).count u := by
  intro links
  induction links with
  | nil => intro u _; rfl
  | cons l rest ih =>
    intro u hu
    rw [List.filterMap_cons, List.map_cons]
    cases hrf : recordFor fetch l with
    | none =>
      dsimp only
      have hne : u ≠ urlOf l := by
        intro he
        rw [he] at hu
        rw [recordFor_none.mp hrf] at hu
        exact absurd hu (by simp)
      rw [List.count_cons_of_ne hne]
      exact ih u hu
    | some r0 =>
      dsimp only
      rw [List.map_cons, (recordFor_some hrf).1]
      by_cases he : u = urlOf l
      · rw [he] at hu ⊢
        rw [List.count_cons_self, List.count_cons_self, ih _ hu]
      · rw [List.count_cons_of_ne he, List.count_cons_of_ne he]
        exact ih u hu

/-- Claim C6.  Dedup: the assembler processes exactly the first link per
canonical URL in listing order (it equals record construction over the
first-occurrence sublist), output URLs are pairwise distinct, feeding the
listing twice changes nothing, and a URL that occurs and has a resolvable
start yields exactly one record. -/
theorem c6_dedup_by_source_url :
    (∀ (fetch : String → Details) (links : List Link),
      assemble fetch links = (dedupByUrl links).filterMap (recordFor fetch)) ∧
    (∀ (fetch : String → Details) (links : List Link),
      ((assemble fetch links).map (fun r => r.url)).Nodup) ∧
    (∀ (fetch : String → Details) (links : List Link),
      assemble fetch (links ++ links) = assemble fetch links) ∧
    (∀ (fetch : String → Details) (links : List Link) (u : String),
      u ∈ links.map urlOf → (fetch u).start.isSome = true →
      ((assemble fetch links).map (fun r => r.url)).count u = 1) := by
  have hchar : ∀ (fetch : String → Details) (links : List Link),
      assemble fetch links = (dedupByUrl links).filterMap (recordFor fetch) :=
    fun fetch links => assembleGo_eq_filterMap fetch links []
  refine ⟨hchar, ?_, ?_, ?_⟩
  · intro fetch links
    rw [hchar]
    exact ((dedupGo_urls_nodup links []).1).sublist (filterMap_url_sublist fetch _)
  · intro fetch links
    rw [hchar, hchar]
    unfold dedupByUrl
    rw [dedupGo_append, dedupGo_eq_nil links (seenAfter [] links)
      (fun l hl => urlOf_mem_seenAfter links [] hl), List.append_nil]
  · intro fetch links u hu hs
    rw [hchar]
    unfold dedupByUrl
    rw [count_filterMap_url fetch _ u hs]
    exact count_dedup_urls links [] u (by simp) hu

/-- Witness for C6: a listing containing the first link twice yields
exactly one record for its URL. -/
theorem c6_dedup_by_source_url_witness :
    ((assemble fetchAB [linkA, linkB, linkA]).map (fun r => r.url)).count (urlOf linkA) = 1 :=
  c6_dedup_by_source_url.2.2.2 fetchAB [linkA, linkB, linkA] (urlOf linkA)
    (by simp) rfl

theorem isAlpha_isWord {c : Char} (h : isAlphaC c = true) : isWordC c = true := by
  unfold isAlphaC at h
  unfold isWordC
  rw [h]
  rfl

theorem takeWhile_append_all {p : Char → Bool} :
    ∀ (w r : List Char), (∀ c ∈ w, p c = true) → r.takeWhile p = [] →
      (w ++ r).takeWhile p = w ∧ (w ++ r).dropWhile p = r := by
  intro w
  induction w with
  | nil =>
    intro r _ hr
    refine ⟨hr, ?_⟩
    cases r with
    | nil => rfl
    | cons c cs =>
      have hpc : p c = false := by
        cases hpc : p c with
        | false => rfl
        | true =>
          rw [List.takeWhile_cons, if_pos hpc] at hr
          exact absurd hr (by simp)
      rw [List.nil_append, List.dropWhile_cons,
        if_neg (by rw [hpc]; exact Bool.false_ne_true)]
  | cons a w ih =>
    intro r hw hr
    have ha : p a = true := hw a (List.mem_cons_self _ _)
    obtain ⟨h1, h2⟩ := ih r (fun c hc => hw c (List.mem_cons_of_mem _ hc)) hr
    constructor
    · rw [List.cons_append, List.takeWhile_cons, if_pos ha, h1]
    · rw [List.cons_append, List.dropWhile_cons, if_pos ha, h2]

theorem matchFullAt_word_head {w r : List Char} (hw : w ≠ [])
    (hword : ∀ c ∈ w, isWordC c = true) (hr : r.takeWhile isWordC = []) :
    matchFullAt (w ++ r) =
      match matchFullRest r with
      | some fr => some ⟨w, fr⟩
      | none => none := by
  obtain ⟨ht, hd⟩ := takeWhile_append_all w r hword hr
  unfold matchFullAt takePlus
  rw [ht, hd]
  have hne : ¬(w.isEmpty = true) := by
    cases w with
    | nil => exact absurd rfl hw
    | cons a t => simp
  rw [if_neg hne]
  dsimp only
  cases matchFullRest r <;> rfl

theorem searchFull_cons (c : Char) (cs : List Char) :
    searchFull (c :: cs) =
      match matchFullAt (c :: cs) with
      | some x => some x
      | none => searchFull cs := rfl

theorem searchShort_cons (c : Char) (cs : List Char) :
    searchShort (c :: cs) =
      match matchShortAt (c :: cs) with
      | some x => some x
      | none => searchShort cs := rfl

theorem searchFull_word_head :
    ∀ (w r : List Char), w ≠ [] → (∀ c ∈ w, isWordC c = true) →
      r.takeWhile isWordC = [] →
      searchFull (w ++ r) =
        match matchFullRest r with
        | some fr => some ⟨w, fr⟩
        | none => searchFull r := by
  intro w
  induction w with
  | nil => intro r h; exact absurd rfl h
  | cons a w ih =>
    intro r _ hw hr
    have hma := matchFullAt_word_head (w := a :: w) (r := r) (by simp) hw hr
    rw [List.cons_append] at hma ⊢
    rw [searchFull_cons, hma]
    cases hfr : matchFullRest r with
    | some fr => rfl
    | none =>
      dsimp only
      by_cases hwnil : w = []
      · subst hwnil
        rfl
      · rw [ih r hwnil (fun c hc => hw c (List.mem_cons_of_mem _ hc)) hr, hfr]

theorem matchShortAt_word_head {w r : List Char} (hw : w ≠ [])
    (hword : ∀ c ∈ w, isWordC c = true) (hr : r.takeWhile isWordC = []) :
    matchShortAt (w ++ r) =
      match matchShortRest r with
      | some sr => some ⟨w, sr⟩
      | none => none := by
  obtain ⟨ht, hd⟩ := takeWhile_append_all w r hword hr
  unfold matchShortAt takePlus
  rw [ht, hd]
  have hne : ¬(w.isEmpty = true) := by
    cases w with
    | nil => exact absurd rfl hw
    | cons a t => simp
  rw [if_neg hne]
  dsimp only
  cases matchShortRest r <;> rfl

theorem searchShort_word_head :
    ∀ (w r : List Char), w ≠ [] → (∀ c ∈ w, isWordC c = true) →
      r.takeWhile isWordC = [] →
      searchShort (w ++ r) =
        match matchShortRest r with
        | some sr => some ⟨w, sr⟩
        | none => searchShort r := by
  intro w
  induction w with
  | nil => intro r h; exact absurd rfl h
  | cons a w ih =>
    intro r _ hw hr
    have hma := matchShortAt_word_head (w := a :: w) (r := r) (by simp) hw hr
    rw [List.cons_append] at hma ⊢
    rw [searchShort_cons, hma]
    cases hsr : matchShortRest r with
    | some sr => rfl
    | none =>
      dsimp only
      by_cases hwnil : w = []
      · subst hwnil
        rfl
      · rw [ih r hwnil (fun c hc => hw c (List.mem_cons_of_mem _ hc)) hr, hsr]

/-- Claim C10.  The weekday capture never influences the parsed instant:
two inputs whose full-form (resp. short-form) captures agree on everything
but the weekday parse identically, and replacing the leading alphabetic
word of a preprocessed input by any other alphabetic word leaves the result
unchanged. -/
theorem c10_weekday_token_never_used :
    (∀ (s₁ s₂ : String) (pf₁ pf₂ : Bool) (clk₁ clk₂ : Clock) (c₁ c₂ : FullCaps),
      searchFull (preprocess s₁) = some c₁ → searchFull (preprocess s₂) = some c₂ →
      c₁.rest = c₂.rest → parseDatetime s₁ pf₁ clk₁ = parseDatetime s₂ pf₂ clk₂) ∧
    (∀ (s₁ s₂ : String) (pf : Bool) (clk : Clock) (c₁ c₂ : ShortCaps),
      searchFull (preprocess s₁) = none → searchFull (preprocess s₂) = none →
      searchShort (preprocess s₁) = some c₁ → searchShort (preprocess s₂) = some c₂ →
      c₁.rest = c₂.rest → parseDatetime s₁ pf clk = parseDatetime s₂ pf clk) ∧
    (∀ (s₁ s₂ : String) (w₁ w₂ r : List Char) (pf : Bool) (clk : Clock),
      preprocess s₁ = w₁ ++ r → preprocess s₂ = w₂ ++ r →
      w₁ ≠ [] → w₂ ≠ [] →
      (∀ c ∈ w₁, isAlphaC c = true) → (∀ c ∈ w₂, isAlphaC c = true) →
      r.takeWhile isWordC = [] →
      parseDatetime s₁ pf clk = parseDatetime s₂ pf clk) := by
  have hnonempty : ∀ (s : String) (x : List Char),
      preprocess s = x → x ≠ [] → ¬s = "" := by
    intro s x hp hx hs
    subst hs
    rw [preprocess_empty] at hp
    exact hx hp.symm
  refine ⟨?_, ?_, ?_⟩
  · intro s₁ s₂ pf₁ pf₂ clk₁ clk₂ c₁ c₂ h₁ h₂ hrest
    have hs₁ : ¬s₁ = "" := by
      intro hs
      subst hs
      rw [preprocess_empty] at h₁
      exact absurd h₁ (by simp [searchFull])
    have hs₂ : ¬s₂ = "" := by
      intro hs
      subst hs
      rw [preprocess_empty] at h₂
      exact absurd h₂ (by simp [searchFull])
    unfold parseDatetime
    rw [if_neg hs₁, if_neg hs₂, h₁, h₂]
    dsimp only
    rw [hrest]
  · intro s₁ s₂ pf clk c₁ c₂ hf₁ hf₂ hsh₁ hsh₂ hrest
    have hs₁ : ¬s₁ = "" := by
      intro hs
      subst hs
      rw [preprocess_empty] at hsh₁
      exact absurd hsh₁ (by simp [searchShort])
    have hs₂ : ¬s₂ = "" := by
      intro hs
      subst hs
      rw [preprocess_empty] at hsh₂
      exact absurd hsh₂ (by simp [searchShort])
    unfold parseDatetime
    rw [if_neg hs₁, if_neg hs₂, hf₁, hf₂]
    dsimp only
    rw [hsh₁, hsh₂]
    dsimp only
    rw [hrest]
  · intro s₁ s₂ w₁ w₂ r pf clk hp₁ hp₂ hw₁ hw₂ ha₁ ha₂ hr
    have hword₁ : ∀ c ∈ w₁, isWordC c = true := fun c hc => isAlpha_isWord (ha₁ c hc)
    have hword₂ : ∀ c ∈ w₂, isWordC c = true := fun c hc => isAlpha_isWord (ha₂ c hc)
    have hs₁ : ¬s₁ = "" := hnonempty s₁ _ hp₁ (by
      intro hx
      exact hw₁ (List.append_eq_nil.mp hx).1)
    have hs₂ : ¬s₂ = "" := hnonempty s₂ _ hp₂ (by
      intro hx
      exact hw₂ (List.append_eq_nil.mp hx).1)
    unfold parseDatetime
    rw [if_neg hs₁, if_neg hs₂, hp₁, hp₂,
      searchFull_word_head w₁ r hw₁ hword₁ hr,
      searchFull_word_head w₂ r hw₂ hword₂ hr]
    cases hfr : matchFullRest r with
    | some fr => rfl
    | none =>
      dsimp only
      cases hsf : searchFull r with
      | some c => rfl
      | none =>
        dsimp only
        rw [searchShort_word_head w₁ r hw₁ hword₁ hr,
          searchShort_word_head w₂ r hw₂ hword₂ hr]
        cases hsr : matchShortRest r with
        | some sr => rfl
        | none => rfl

/-- Witness for C10: replacing the weekday "Tuesday" by the non-weekday
word "Fooday" leaves the parsed instant unchanged. -/
theorem c10_weekday_token_never_used_witness :
    parseDatetime fullFormExample true clk2025Jan1 =
      parseDatetime fullFormReworded true clk2025Jan1 :=
  c10_weekday_token_never_used.2.2 fullFormExample fullFormReworded
    "Tuesday".data "Fooday".data ", October 7, 2025, at 10:00 AM".data true clk2025Jan1
    rfl rfl (by decide) (by decide) (by decide) (by decide) rfl

/-- Counterexample to claim C8 as stated: a short-form match whose month
token is not a month abbreviation makes `strptime` raise `ValueError`,
which `parse_datetime` does not catch. -/
theorem c8_counterexample :
    parseDatetime badMonthExample true clk2025Jan1 = .error () := rfl

/-- Claim C8, amended: `parse` returns `NotParseable` exactly when neither
date pattern matches (in particular it cannot raise then); when a pattern
matches it returns a resolved instant or raises from field validation. -/
theorem c8_not_parseable_iff_no_pattern_match :
    ∀ (s : String) (pf : Bool) (clk : Clock),
      parseDatetime s pf clk = .ok none ↔
        searchFull (preprocess s) = none ∧ searchShort (preprocess s) = none := by
  intro s pf clk
  by_cases hs : s = ""
  · subst hs
    exact ⟨fun _ => ⟨rfl, rfl⟩, fun _ => rfl⟩
  · unfold parseDatetime
    rw [if_neg hs]
    cases hf : searchFull (preprocess s) with
    | some c =>
      dsimp only
      constructor
      · intro h
        cases hsp : strptimeFull c.rest with
        | some n =>
          rw [hsp] at h
          exact absurd h (by simp)
        | none =>
          rw [hsp] at h
          exact absurd h (by simp)
      · intro h
        exact absurd h.1 (by simp)
    | none =>
      dsimp only
      cases hsh : searchShort (preprocess s) with
      | none => exact ⟨fun _ => ⟨rfl, rfl⟩, fun _ => rfl⟩
      | some c =>
        dsimp only
        cases hsp : strptimeShort c.rest clk.sysYear with
        | none =>
          dsimp only
          constructor
          · intro h
            exact absurd h (by simp)
          · intro h
            exact absurd h.2 (by simp)
        | some n =>
          dsimp only
          constructor
          · intro h
            by_cases hc : pf = true ∧ (localize n).utcMin < clk.bruNowUtc
            · rw [if_pos hc] at h
              cases hsp2 : strptimeShort c.rest (clk.sysYear + 1) with
              | some n2 =>
                rw [hsp2] at h
                exact absurd h (by simp)
              | none =>
                rw [hsp2] at h
                exact absurd h (by simp)
            · rw [if_neg hc] at h
              exact absurd h (by simp)
          · intro h
            exact absurd h.2 (by simp)

end LeekDuck
